import Mathlib

/-!
Verification of the BFV-RNS public-key-encryption core (`bfvrns-pke.cpp`)
and of the ciphertext rerandomization block of `hpdic_nemesis_ckks.cpp`.

The development uses two views of the same data:

* a *logical* view, where an RNS polynomial is its CRT-recombined value:
  one polynomial with coefficients in `ZMod Q` (the data model states that an
  RNS polynomial is "logically one polynomial of fixed ring degree N with
  integer coefficients modulo Q"); in transform (evaluation) domain the ring
  operations are pointwise, so the coefficient type is `Fin n → ZMod Q` with
  the product ring structure;
* a *structural* view (`DCRTPolyB`), where the per-tower residue lists,
  the representation-domain tag and the tower moduli are explicit; this is
  the view on which key generation, the two encryption entry points and the
  decryption dispatch are transcribed.

External collaborators (NTT, samplers, `EncryptZeroCore`, `DecryptCore`,
and the precomputed-constant scale-and-round kernels, none of which are part
of the source slice) enter as function parameters or as definitions that are
modelled from the specification; each such definition says so in its
doc comment.
-/

namespace BFV

/-- Round-to-nearest division of `a` by `b` (intended for `b > 0`):
`⌊a / b + 1/2⌋`, computed as `(2a + b) / (2b)` with floor division.
This is the "round to nearest" correction demanded by the spec for every
scale-and-round step. -/
def roundDiv (a b : ℤ) : ℤ :=
  (2 * a + b) / (2 * b)

theorem roundDiv_add_mul (a b c : ℤ) (hb : 0 < b) :
    roundDiv (a + c * b) b = roundDiv a b + c := by
  unfold roundDiv
  have h2b : (2 * b) ≠ 0 := by omega
  have hnum : 2 * (a + c * b) + b = (2 * a + b) + c * (2 * b) := by ring
  rw [hnum, Int.add_mul_ediv_right _ _ h2b]

theorem roundDiv_eq_zero (a b : ℤ)
    (hlo : -b ≤ 2 * a) (hhi : 2 * a < b) : roundDiv a b = 0 := by
  unfold roundDiv
  exact Int.ediv_eq_zero_of_lt (by omega) (by omega)

/-- Core scale-and-round recovery fact: if `x` is congruent mod `Q` to
`⌊Q/t⌋·m + w` and the accumulated (scaled) noise `t·w - (Q mod t)·m` is
below `Q/2` in magnitude, then rounding `t·x/Q` to the nearest integer and
reducing mod `t` returns exactly `m`. -/
theorem scaleRound_recovers (Q t : ℕ) (hQ : 0 < Q) (m w x : ℤ)
    (hm0 : 0 ≤ m) (hmt : m < t)
    (hx : x ≡ ((Q / t : ℕ) : ℤ) * m + w [ZMOD (Q : ℤ)])
    (hlo : -(Q : ℤ) ≤ 2 * ((t : ℤ) * w - ((Q % t : ℕ) : ℤ) * m))
    (hhi : 2 * ((t : ℤ) * w - ((Q % t : ℕ) : ℤ) * m) < Q) :
    roundDiv ((t : ℤ) * x) Q % t = m := by
  obtain ⟨k, hk⟩ := (Int.ModEq.dvd hx)
  -- `x = ⌊Q/t⌋·m + w - Q·k`
  have hxval : x = ((Q / t : ℕ) : ℤ) * m + w - (Q : ℤ) * k := by omega
  have hnat : ((t * (Q / t) + Q % t : ℕ) : ℤ) = (Q : ℤ) := by
    exact_mod_cast congrArg (Nat.cast : ℕ → ℤ) (Nat.div_add_mod Q t)
  have htQ : (t : ℤ) * ((Q / t : ℕ) : ℤ) = (Q : ℤ) - ((Q % t : ℕ) : ℤ) := by
    rw [Nat.cast_add, Nat.cast_mul] at hnat
    linarith
  set u : ℤ := (t : ℤ) * w - ((Q % t : ℕ) : ℤ) * m with hu
  have hsplit : (t : ℤ) * x = u + (m - t * k) * (Q : ℤ) := by
    rw [hxval]
    have hdist : (t : ℤ) * (((Q / t : ℕ) : ℤ) * m + w - (Q : ℤ) * k)
        = ((t : ℤ) * ((Q / t : ℕ) : ℤ)) * m + (t : ℤ) * w - (Q : ℤ) * ((t : ℤ) * k) := by
      ring
    rw [hdist, htQ]
    ring
  have hQ' : (0 : ℤ) < (Q : ℤ) := by exact_mod_cast hQ
  rw [hsplit, roundDiv_add_mul _ _ _ hQ', roundDiv_eq_zero _ _ hlo hhi]
  have hmk : (0 : ℤ) + (m - t * k) = m + (t : ℤ) * (-k) := by ring
  rw [hmk, Int.add_mul_emod_self_left, Int.emod_eq_of_lt hm0 hmt]

/-! ## Logical view: polynomials with coefficients mod `Q` -/

/-- A ring element in the logical view: ring dimension `n`, one coefficient
(or transform-domain sample) per slot, modulo the full ciphertext modulus
`Q`.  In transform domain the ring structure is pointwise, which is the
product ring structure of the `Pi` type. -/
abbrev PolyA (n Q : ℕ) : Type := Fin n → ZMod Q

/-- Modelled from the spec: `DCRTPoly::TimesQovert` (external to the source
slice) — "multiply each coefficient by a precomputed per-level, per-tower
constant (`⌊Q/t⌋ mod q_i` ...), converting a mod-`t` plaintext into a mod-`Q`
polynomial representing `⌊Q/t⌋·m`". -/
def timesQovert (n Q t : ℕ) (m : Fin n → ℕ) : PolyA n Q :=
  fun j => ((Q / t * m j : ℕ) : ZMod Q)

/-- Ciphertext in the logical view: the two components and the
noise-scale-degree counter set by the encryption engine. -/
structure CtxtA (n Q : ℕ) where
  c0 : PolyA n Q
  c1 : PolyA n Q
  noiseScaleDeg : ℕ

/-- The (standard-technique) assembly step shared by both encryption entry
points of `bfvrns-pke.cpp`: given the output `ba = (b', a')` of the external
`EncryptZeroCore` collaborator, scale the plaintext by `⌊Q/t⌋`, convert to
transform domain through the (external, lossless) transform `T`, and add it
to the zero-encryption's first component; noise-scale degree is set to 1. -/
def encryptStd (n Q t : ℕ) (T : PolyA n Q ≃+ PolyA n Q)
    (ba : PolyA n Q × PolyA n Q) (m : Fin n → ℕ) : CtxtA n Q :=
  { c0 := ba.1 + T (timesQovert n Q t m), c1 := ba.2, noiseScaleDeg := 1 }

/-- Modelled from the spec: the external "decrypt core" primitive of the
decryption engine — "compute `b = c0 + c1·s` in transform domain". -/
def decryptCore (n Q : ℕ) (c0 c1 s : PolyA n Q) : PolyA n Q :=
  c0 + c1 * s

/-- Modelled from the spec: the *direct* (HPS) scale-and-round technique of
the decryption engine (external to the source slice) — "scale `b` by `t/Q`
... producing the plaintext polynomial directly via a single rounded
multiply-shift per coefficient", then reduce mod `t`. -/
def scaleAndRoundDirect (Q t : ℕ) (x : ZMod Q) : ℤ :=
  roundDiv ((t : ℤ) * (x.val : ℤ)) Q % t

/-- Full-level decryption with the direct technique in the logical view:
apply the decrypt core, convert back to coefficient domain through the
inverse transform, and scale-and-round each coefficient. -/
def decryptDirect (n Q t : ℕ) (T : PolyA n Q ≃+ PolyA n Q)
    (ct : CtxtA n Q) (s : PolyA n Q) : Fin n → ℤ :=
  fun j => scaleAndRoundDirect Q t (T.symm (decryptCore n Q ct.c0 ct.c1 s) j)

/-- Claim C1: for every parameter set, every key, and every plaintext with
coefficients in `[0, t)`, decrypting the encryption of `m` (either path:
the output `ba` of the external encryption-of-zero primitive is arbitrary)
returns `m` exactly, provided the accumulated noise — the coefficient-domain
value `w` of `b' + a'·s` corrected by the rounding deficit
`(Q mod t)·m` of `⌊Q/t⌋` — stays below `Q/2` in magnitude. -/
theorem bfv_roundtrip_exact (n Q t : ℕ) [NeZero Q]
    (T : PolyA n Q ≃+ PolyA n Q) (s : PolyA n Q)
    (ba : PolyA n Q × PolyA n Q) (m : Fin n → ℕ)
    (hm : ∀ j, m j < t)
    (hnoise : ∀ j, ∃ w : ℤ,
      T.symm (ba.1 + ba.2 * s) j = (w : ZMod Q) ∧
      -(Q : ℤ) ≤ 2 * ((t : ℤ) * w - ((Q % t : ℕ) : ℤ) * (m j : ℤ)) ∧
      2 * ((t : ℤ) * w - ((Q % t : ℕ) : ℤ) * (m j : ℤ)) < Q) :
    ∀ j, decryptDirect n Q t T (encryptStd n Q t T ba m) s j = (m j : ℤ) := by
  intro j
  obtain ⟨w, hw, hlo, hhi⟩ := hnoise j
  have hQ : 0 < Q := Nat.pos_of_ne_zero (NeZero.ne Q)
  -- the decrypt core applied to the fresh ciphertext
  have hcore : decryptCore n Q (encryptStd n Q t T ba m).c0
      (encryptStd n Q t T ba m).c1 s
      = (ba.1 + ba.2 * s) + T (timesQovert n Q t m) := by
    unfold decryptCore encryptStd
    dsimp only
    ring
  have hsymm : T.symm (decryptCore n Q (encryptStd n Q t T ba m).c0
      (encryptStd n Q t T ba m).c1 s)
      = T.symm (ba.1 + ba.2 * s) + timesQovert n Q t m := by
    rw [hcore, map_add, AddEquiv.symm_apply_apply]
  unfold decryptDirect
  rw [hsymm]
  unfold scaleAndRoundDirect
  -- the coefficient at slot `j`, as an element of `ZMod Q`
  have hcoef : (T.symm (ba.1 + ba.2 * s) + timesQovert n Q t m) j
      = ((((Q / t : ℕ) : ℤ) * ((m j : ℕ) : ℤ) + w : ℤ) : ZMod Q) := by
    have happ : (T.symm (ba.1 + ba.2 * s) + timesQovert n Q t m) j
        = T.symm (ba.1 + ba.2 * s) j + timesQovert n Q t m j := rfl
    rw [happ, hw]
    unfold timesQovert
    rw [Int.cast_add, Int.cast_mul, Int.cast_natCast, Int.cast_natCast,
      Nat.cast_mul]
    ring
  have hval : (((((T.symm (ba.1 + ba.2 * s) + timesQovert n Q t m) j).val : ℕ) : ℤ) : ZMod Q)
      = (T.symm (ba.1 + ba.2 * s) + timesQovert n Q t m) j := by
    rw [Int.cast_natCast, ZMod.natCast_val, ZMod.cast_id]
  have hcong : ((((T.symm (ba.1 + ba.2 * s) + timesQovert n Q t m) j).val : ℕ) : ℤ)
      ≡ ((Q / t : ℕ) : ℤ) * ((m j : ℕ) : ℤ) + w [ZMOD (Q : ℤ)] := by
    refine (ZMod.intCast_eq_intCast_iff _ _ _).mp ?_
    rw [hval, hcoef]
  exact scaleRound_recovers Q t hQ ((m j : ℕ) : ℤ) w _
    (Int.natCast_nonneg _) (by exact_mod_cast hm j) hcong hlo hhi

/-- Concrete witness for C1: ring dimension 1, `Q = 100`, `t = 4`,
identity transform, secret `s = 3`, zero-encryption `ba = (1, 0)`
(accumulated noise `w = 1`), plaintext `m = 2`. -/
theorem bfv_roundtrip_exact_witness :
    (∀ j : Fin 1, (fun _ : Fin 1 => 2) j < 4) ∧
    (∀ j : Fin 1, decryptDirect 1 100 4 (AddEquiv.refl (PolyA 1 100))
      (encryptStd 1 100 4 (AddEquiv.refl (PolyA 1 100))
        ((fun _ => 1), (fun _ => 0)) (fun _ => 2))
      (fun _ => 3) j = ((fun _ : Fin 1 => 2) j : ℤ)) := by
  haveI : NeZero (100 : ℕ) := ⟨by norm_num⟩
  constructor
  · intro j
    norm_num
  · refine bfv_roundtrip_exact 1 100 4 (AddEquiv.refl (PolyA 1 100))
      (fun _ => 3) ((fun _ => 1), (fun _ => 0)) (fun _ => 2) ?_ ?_
    · intro j
      norm_num
    · intro j
      refine ⟨1, ?_, by norm_num, by norm_num⟩
      fin_cases j
      decide

/-! ## The classical CRT-gamma scale-and-round technique (C6) -/

/-- Centered residue of `a` modulo `g`: the representative of `a mod g`
lying in `[-(g-1)/2, g - 1 - (g-1)/2]`; for odd `g` this is the symmetric
interval `[-(g-1)/2, (g-1)/2]`. -/
def cmod (a g : ℤ) : ℤ :=
  (a + (g - 1) / 2) % g - (g - 1) / 2

/-- Modelled from the spec: the *classical CRT-gamma* scale-and-round
technique of the decryption engine (external to the source slice) — "scale
`b` using an auxiliary gamma modulus and rational reconstruction constants,
then reduce modulo `t`".  The value is scaled by `t·g/Q` with rounding, the
rounding excess is recovered as a centered residue modulo the auxiliary
modulus `g`, subtracted, and the exact multiple of `g` divided out before
the final reduction mod `t`. -/
def scaleAndRoundClassical (Q t g : ℕ) (x : ZMod Q) : ℤ :=
  ((roundDiv (((t * g : ℕ) : ℤ) * (x.val : ℤ)) Q
    - cmod (roundDiv (((t * g : ℕ) : ℤ) * (x.val : ℤ)) Q) g) / (g : ℤ)) % t

/-- The multiplication-technique configuration selector
(`MultiplicationTechnique` in OpenFHE). -/
inductive MultTechnique
  | BEHZ
  | HPS
  | HPSPOVERQ
  | HPSPOVERQLEVELED
deriving DecidableEq

/-- The full-level branch of `PKEBFVRNS::Decrypt`: when the ciphertext has
as many towers as a fresh one, dispatch on the configured multiplication
technique — HPS-family selectors use the direct scale-and-round, the
remaining selector uses the classical CRT-gamma scale-and-round. -/
def decryptFullLevel (n Q t g : ℕ) (tech : MultTechnique)
    (T : PolyA n Q ≃+ PolyA n Q) (ct : CtxtA n Q) (s : PolyA n Q) :
    Fin n → ℤ :=
  fun j =>
    if tech = MultTechnique.HPS ∨ tech = MultTechnique.HPSPOVERQ ∨
        tech = MultTechnique.HPSPOVERQLEVELED then
      scaleAndRoundDirect Q t (T.symm (decryptCore n Q ct.c0 ct.c1 s) j)
    else
      scaleAndRoundClassical Q t g (T.symm (decryptCore n Q ct.c0 ct.c1 s) j)

/-- Scaling a round-to-nearest quotient by an odd factor `g` overshoots the
`g`-fold quotient by a centered residue: `roundDiv (g·a) b = g·q + d` with
`q = roundDiv a b` and `|d| ≤ (g-1)/2`. -/
theorem roundDiv_mul_odd (a b g h : ℤ) (hb : 0 < b) (ha : 0 ≤ a)
    (hg : g = 2 * h + 1) (hh : 0 ≤ h) :
    ∃ d : ℤ, roundDiv (g * a) b = g * roundDiv a b + d ∧ -h ≤ d ∧ d ≤ h := by
  have hb2 : (0 : ℤ) < 2 * b := by omega
  have hb2' : (2 * b : ℤ) ≠ 0 := by omega
  set A : ℤ := 2 * a + b with hA
  set q : ℤ := A / (2 * b) with hq
  set ρ : ℤ := A % (2 * b) with hρ
  have hAeq : 2 * b * q + ρ = A := Int.ediv_add_emod A (2 * b)
  have hρ0 : 0 ≤ ρ := Int.emod_nonneg A hb2'
  have hρlt : ρ < 2 * b := Int.emod_lt_of_pos A hb2
  set d : ℤ := (g * ρ - (g - 1) * b) / (2 * b) with hd
  refine ⟨d, ?_, ?_, ?_⟩
  · have hnum : 2 * (g * a) + b = (g * ρ - (g - 1) * b) + (g * q) * (2 * b) := by
      have : 2 * (g * a) + b = g * A - (g - 1) * b := by rw [hA]; ring
      rw [this, ← hAeq]; ring
    unfold roundDiv
    rw [hnum, Int.add_mul_ediv_right _ _ hb2', ← hd, ← hA, ← hq]
    ring
  · -- lower bound: the numerator is at least `-h·(2b)`
    rw [hd]
    refine (Int.le_ediv_iff_mul_le hb2).mpr ?_
    have hgρ : 0 ≤ g * ρ := mul_nonneg (by omega) hρ0
    have : (g - 1) * b = h * (2 * b) := by rw [hg]; ring
    nlinarith
  · -- upper bound: the numerator is below `(h+1)·(2b)`
    rw [hd]
    have hlt : (g * ρ - (g - 1) * b) / (2 * b) < h + 1 := by
      refine (Int.ediv_lt_iff_lt_mul hb2).mpr ?_
      have h1 : g * ρ ≤ g * (2 * b - 1) := by
        refine mul_le_mul_of_nonneg_left (by omega) (by omega)
      have h2 : (h + 1) * (2 * b) = (g + 1) * b := by rw [hg]; ring
      nlinarith
    omega

/-- For odd `g`, the centered residue of `g·q + d` with `|d| ≤ (g-1)/2`
is exactly `d`. -/
theorem cmod_mul_add (g h q d : ℤ) (hg : g = 2 * h + 1) (hh : 0 ≤ h)
    (hdlo : -h ≤ d) (hdhi : d ≤ h) : cmod (g * q + d) g = d := by
  unfold cmod
  have hg1 : (g - 1) / 2 = h := by
    rw [hg]
    have : 2 * h + 1 - 1 = 2 * h := by ring
    rw [this, Int.mul_ediv_cancel_left h (by omega)]
  rw [hg1]
  have harr : g * q + d + h = (d + h) + g * q := by ring
  rw [harr, Int.add_mul_emod_self_left, Int.emod_eq_of_lt (by omega) (by omega)]
  omega

/-- The classical CRT-gamma technique agrees with the direct technique on
every input when the auxiliary modulus is odd. -/
theorem classical_eq_direct (Q t g : ℕ) (hQ : 0 < Q) (hg : g % 2 = 1)
    (x : ZMod Q) :
    scaleAndRoundClassical Q t g x = scaleAndRoundDirect Q t x := by
  set h : ℤ := ((g : ℤ) - 1) / 2 with hh
  have hgodd : (g : ℤ) = 2 * h + 1 := by omega
  have hh0 : 0 ≤ h := by omega
  have hQ' : (0 : ℤ) < (Q : ℤ) := by exact_mod_cast hQ
  have hv0 : (0 : ℤ) ≤ (t : ℤ) * (x.val : ℤ) :=
    mul_nonneg (Int.natCast_nonneg _) (Int.natCast_nonneg _)
  obtain ⟨d, hy, hdlo, hdhi⟩ :=
    roundDiv_mul_odd ((t : ℤ) * (x.val : ℤ)) (Q : ℤ) (g : ℤ) h hQ' hv0 hgodd hh0
  unfold scaleAndRoundClassical scaleAndRoundDirect
  have hcast : (((t * g : ℕ) : ℤ) * (x.val : ℤ)) = (g : ℤ) * ((t : ℤ) * (x.val : ℤ)) := by
    push_cast
    ring
  rw [hcast, hy, cmod_mul_add (g : ℤ) h _ d hgodd hh0 hdlo hdhi]
  have hdiv : ((g : ℤ) * roundDiv ((t : ℤ) * (x.val : ℤ)) (Q : ℤ) + d - d) / (g : ℤ)
      = roundDiv ((t : ℤ) * (x.val : ℤ)) (Q : ℤ) := by
    have hsub : (g : ℤ) * roundDiv ((t : ℤ) * (x.val : ℤ)) (Q : ℤ) + d - d
        = (g : ℤ) * roundDiv ((t : ℤ) * (x.val : ℤ)) (Q : ℤ) := by ring
    rw [hsub, Int.mul_ediv_cancel_left _ (by omega)]
  rw [hdiv]

/-- Claim C6: for every full-level ciphertext, the decrypted plaintext does
not depend on the configured multiplication technique: the direct (HPS)
and classical CRT-gamma branches of `PKEBFVRNS::Decrypt` return the same
value (for an odd auxiliary modulus `g`, under which the rational
reconstruction of the gamma technique is exact). -/
theorem decrypt_technique_equivalence (n Q t g : ℕ) (hQ : 0 < Q)
    (hg : g % 2 = 1) (tech tech' : MultTechnique)
    (T : PolyA n Q ≃+ PolyA n Q) (ct : CtxtA n Q) (s : PolyA n Q) :
    decryptFullLevel n Q t g tech T ct s
      = decryptFullLevel n Q t g tech' T ct s := by
  have hkey : ∀ x : ZMod Q,
      scaleAndRoundClassical Q t g x = scaleAndRoundDirect Q t x :=
    classical_eq_direct Q t g hQ hg
  funext j
  unfold decryptFullLevel
  by_cases h1 : tech = MultTechnique.HPS ∨ tech = MultTechnique.HPSPOVERQ ∨
      tech = MultTechnique.HPSPOVERQLEVELED <;>
    by_cases h2 : tech' = MultTechnique.HPS ∨ tech' = MultTechnique.HPSPOVERQ ∨
        tech' = MultTechnique.HPSPOVERQLEVELED <;>
    simp [h1, h2, hkey]

/-- Concrete witness for C6: `Q = 101`, `t = 4`, `g = 27`, the BEHZ selector
against the HPS selector, on a one-slot ciphertext. -/
theorem decrypt_technique_equivalence_witness :
    decryptFullLevel 1 101 4 27 MultTechnique.BEHZ (AddEquiv.refl (PolyA 1 101))
      ⟨(fun _ => 37), (fun _ => 5), 1⟩ (fun _ => 3)
    = decryptFullLevel 1 101 4 27 MultTechnique.HPS (AddEquiv.refl (PolyA 1 101))
      ⟨(fun _ => 37), (fun _ => 5), 1⟩ (fun _ => 3) :=
  decrypt_technique_equivalence 1 101 4 27 (by norm_num) (by norm_num)
    MultTechnique.BEHZ MultTechnique.HPS (AddEquiv.refl (PolyA 1 101))
    ⟨(fun _ => 37), (fun _ => 5), 1⟩ (fun _ => 3)

/-! ## Structural view: RNS polynomials with explicit towers -/

/-- Representation domain of an RNS polynomial. -/
inductive Format
  | COEFFICIENT
  | EVALUATION
deriving DecidableEq

/-- One tower: a residue polynomial modulo one prime of the chain, together
with the root of unity recorded for the transform (`NativePoly` in the
source). -/
structure Tower (n : ℕ) where
  modulus : ℕ
  root : ℕ
  values : Fin n → ℤ
deriving DecidableEq

/-- An RNS (`DCRTPoly`) value in the structural view: a representation
domain shared by all towers, and the list of towers. -/
structure DCRTPolyB (n : ℕ) where
  format : Format
  towers : List (Tower n)
deriving DecidableEq

/-- Pointwise (per-slot) arithmetic on one tower, reduced modulo the left
operand's tower modulus. -/
def Tower.binop (f : ℤ → ℤ → ℤ) (x y : Tower n) : Tower n :=
  ⟨x.modulus, x.root, fun j => f (x.values j) (y.values j) % (x.modulus : ℤ)⟩

/-- Unchecked elementwise arithmetic: zip the tower lists. -/
def DCRTPolyB.binop0 (f : ℤ → ℤ → ℤ) (x y : DCRTPolyB n) : DCRTPolyB n :=
  ⟨x.format, List.zipWith (Tower.binop f) x.towers y.towers⟩

/-- Modelled from the spec: elementwise RNS arithmetic with its fail-fast
precondition checks — "domain must match on both operands — violating this
is a programming error, not a recoverable failure, and must fail fast" and
"mismatched tower counts between operands ... fails fast" (the `DCRTPoly`
arithmetic layer is external to the source slice). -/
def DCRTPolyB.binop (f : ℤ → ℤ → ℤ) (x y : DCRTPolyB n) :
    Except String (DCRTPolyB n) :=
  if x.format = y.format then
    if x.towers.length = y.towers.length then
      Except.ok (DCRTPolyB.binop0 f x y)
    else Except.error ("tower size mismatch")
  else Except.error ("format mismatch")

def DCRTPolyB.add (x y : DCRTPolyB n) : Except String (DCRTPolyB n) :=
  DCRTPolyB.binop (· + ·) x y

def DCRTPolyB.sub (x y : DCRTPolyB n) : Except String (DCRTPolyB n) :=
  DCRTPolyB.binop (· - ·) x y

def DCRTPolyB.mul (x y : DCRTPolyB n) : Except String (DCRTPolyB n) :=
  DCRTPolyB.binop (· * ·) x y

/-- Scalar multiple (`noiseScale · e`), per tower, per slot. -/
def DCRTPolyB.scale (c : ℕ) (x : DCRTPolyB n) : DCRTPolyB n :=
  ⟨x.format, x.towers.map fun tw =>
    ⟨tw.modulus, tw.root, fun j => ((c : ℤ) * tw.values j) % (tw.modulus : ℤ)⟩⟩

/-- Transcribes `DCRTPoly::DropLastElements(k)`: remove the last `k` towers. -/
def DCRTPolyB.dropLastElements (k : ℕ) (x : DCRTPolyB n) : DCRTPolyB n :=
  ⟨x.format, x.towers.take (x.towers.length - k)⟩

/-- A modulus chain (element-parameter object): the ordered list of tower
moduli. -/
structure ChainParams where
  moduli : List ℕ
deriving DecidableEq

/-- The encryption-technique configuration selector. -/
inductive EncryptionTechnique
  | STANDARD
  | EXTENDED
deriving DecidableEq

/-- The secret-key distribution selectors of the `SecretKeyDist` enum; any
other numeric value is an unsupported selector. -/
def GAUSSIAN : ℕ := 0

def UNIFORM_TERNARY : ℕ := 1

def SPARSE_TERNARY : ℕ := 2

/-- The slice of `CryptoParametersBFVRNS` that `bfvrns-pke.cpp` reads:
the primary chain, the extended chain `Qr`, the public-key (key-switching)
chain, the two configuration selectors, the noise scale, the plaintext
modulus, and the precomputed constant tables (whose values are opaque
payload here). -/
structure CryptoParamsBFVRNS where
  elementParams : ChainParams
  paramsQr : ChainParams
  paramsPK : ChainParams
  encryptionTechnique : EncryptionTechnique
  secretKeyDist : ℕ
  noiseScale : ℕ
  plaintextModulus : ℕ
  multTechnique : MultTechnique
  tInvModq : List ℤ
  tInvModqr : List ℤ
  negQModt : ℕ → ℤ
  negQModtPrecon : ℕ → ℤ
  negQrModt : ℤ
  negQrModtPrecon : ℤ
  rInvModq : List ℤ

/-- An external distribution sampler producing an RNS polynomial at a given
chain and domain (discrete Gaussian `dgg`, or uniform `dug`). -/
abbrev SamplerD (n : ℕ) : Type := ChainParams → Format → DCRTPolyB n

/-- An external ternary sampler; the last argument is the target Hamming
weight (`0` models the C++ default argument used for dense sampling). -/
abbrev SamplerT (n : ℕ) : Type := ChainParams → Format → ℕ → DCRTPolyB n

/-- The secret-key sampling switch of `PKEBFVRNS::KeyGenInternal`: Gaussian,
uniform ternary, or sparse ternary with target Hamming weight 192; any other
selector falls through (`default: break`), leaving the secret key
default-constructed (towerless). -/
def sampleSecret (cp : CryptoParamsBFVRNS) (dgg : SamplerD n) (tug : SamplerT n) :
    DCRTPolyB n :=
  if cp.secretKeyDist = GAUSSIAN then dgg cp.paramsPK Format.EVALUATION
  else if cp.secretKeyDist = UNIFORM_TERNARY then
    tug cp.paramsPK Format.EVALUATION 0
  else if cp.secretKeyDist = SPARSE_TERNARY then
    tug cp.paramsPK Format.EVALUATION 192
  else ⟨Format.EVALUATION, []⟩

/-- The output of key generation: secret key `s` and public key `(b, a)`. -/
structure KeyPairB (n : ℕ) where
  secretKey : DCRTPolyB n
  publicB : DCRTPolyB n
  publicA : DCRTPolyB n
deriving DecidableEq

/-- Transcribes `PKEBFVRNS::KeyGenInternal`: pick the working chain (the `Qr` chain
under the EXTENDED technique, else the primary chain), sample the secret
`s`, sample uniform `a` and Gaussian `e` at the public-key chain in
transform domain, compute `b = noiseScale·e - a·s`, and truncate `s` when
the public-key chain is longer than the working chain. -/
def KeyGenInternal (cp : CryptoParamsBFVRNS) (dgg dug : SamplerD n)
    (tug : SamplerT n) : Except String (KeyPairB n) :=
  let elementParams :=
    if cp.encryptionTechnique = EncryptionTechnique.EXTENDED then cp.paramsQr
    else cp.elementParams
  let paramsPK := cp.paramsPK
  let s := sampleSecret cp dgg tug
  let a := dug paramsPK Format.EVALUATION
  let e := dgg paramsPK Format.EVALUATION
  match DCRTPolyB.mul a s with
  | Except.error msg => Except.error msg
  | Except.ok as =>
    match DCRTPolyB.sub (DCRTPolyB.scale cp.noiseScale e) as with
    | Except.error msg => Except.error msg
    | Except.ok b =>
      let sizeQ := elementParams.moduli.length
      let sizePK := paramsPK.moduli.length
      let s2 :=
        if sizeQ < sizePK then DCRTPolyB.dropLastElements (sizePK - sizeQ) s
        else s
      Except.ok ⟨s2, b, a⟩

/-- Well-formedness of a sampled RNS polynomial with respect to a chain:
it is in transform domain and its towers run over exactly that chain. -/
def atChain (p : DCRTPolyB n) (ps : ChainParams) : Prop :=
  p.format = Format.EVALUATION ∧ p.towers.map Tower.modulus = ps.moduli

theorem map_modulus_zipWith (f : ℤ → ℤ → ℤ) :
    ∀ (xs ys : List (Tower n)), xs.length = ys.length →
      (List.zipWith (Tower.binop f) xs ys).map Tower.modulus
        = xs.map Tower.modulus := by
  intro xs
  induction xs with
  | nil => intro ys _; simp
  | cons x xs ih =>
    intro ys hlen
    cases ys with
    | nil => simp at hlen
    | cons y ys =>
      simp only [List.zipWith_cons_cons, List.map_cons]
      have := ih ys (by simpa using hlen)
      rw [this]
      rfl

theorem map_modulus_scale (c : ℕ) (x : DCRTPolyB n) :
    (DCRTPolyB.scale c x).towers.map Tower.modulus
      = x.towers.map Tower.modulus := by
  unfold DCRTPolyB.scale
  simp

theorem length_of_atChain {p : DCRTPolyB n} {ps : ChainParams}
    (h : atChain p ps) : p.towers.length = ps.moduli.length := by
  have := h.2
  calc p.towers.length = (p.towers.map Tower.modulus).length := by simp
    _ = ps.moduli.length := by rw [this]

/-- Shape of a successful key generation: under well-formed sampler outputs
every precondition check passes and the returned key pair is the unchecked
computation. -/
theorem keygen_ok_of_wf (cp : CryptoParamsBFVRNS) (dgg dug : SamplerD n)
    (tug : SamplerT n)
    (hs : atChain (sampleSecret cp dgg tug) cp.paramsPK)
    (ha : atChain (dug cp.paramsPK Format.EVALUATION) cp.paramsPK)
    (he : atChain (dgg cp.paramsPK Format.EVALUATION) cp.paramsPK) :
    KeyGenInternal cp dgg dug tug = Except.ok
      { secretKey :=
          (if (if cp.encryptionTechnique = EncryptionTechnique.EXTENDED then
              cp.paramsQr else cp.elementParams).moduli.length
              < cp.paramsPK.moduli.length then
            DCRTPolyB.dropLastElements
              (cp.paramsPK.moduli.length -
                (if cp.encryptionTechnique = EncryptionTechnique.EXTENDED then
                  cp.paramsQr else cp.elementParams).moduli.length)
              (sampleSecret cp dgg tug)
          else sampleSecret cp dgg tug)
        publicB := DCRTPolyB.binop0 (· - ·)
          (DCRTPolyB.scale cp.noiseScale (dgg cp.paramsPK Format.EVALUATION))
          (DCRTPolyB.binop0 (· * ·) (dug cp.paramsPK Format.EVALUATION)
            (sampleSecret cp dgg tug))
        publicA := dug cp.paramsPK Format.EVALUATION } := by
  have hmul : DCRTPolyB.mul (dug cp.paramsPK Format.EVALUATION)
      (sampleSecret cp dgg tug)
      = Except.ok (DCRTPolyB.binop0 (· * ·) (dug cp.paramsPK Format.EVALUATION)
          (sampleSecret cp dgg tug)) := by
    unfold DCRTPolyB.mul DCRTPolyB.binop
    rw [if_pos (by rw [ha.1, hs.1]),
      if_pos (by rw [length_of_atChain ha, length_of_atChain hs])]
  have hsub : DCRTPolyB.sub
      (DCRTPolyB.scale cp.noiseScale (dgg cp.paramsPK Format.EVALUATION))
      (DCRTPolyB.binop0 (· * ·) (dug cp.paramsPK Format.EVALUATION)
        (sampleSecret cp dgg tug))
      = Except.ok (DCRTPolyB.binop0 (· - ·)
          (DCRTPolyB.scale cp.noiseScale (dgg cp.paramsPK Format.EVALUATION))
          (DCRTPolyB.binop0 (· * ·) (dug cp.paramsPK Format.EVALUATION)
            (sampleSecret cp dgg tug))) := by
    unfold DCRTPolyB.sub DCRTPolyB.binop
    have hf : (DCRTPolyB.scale cp.noiseScale
        (dgg cp.paramsPK Format.EVALUATION)).format
        = (DCRTPolyB.binop0 (· * ·) (dug cp.paramsPK Format.EVALUATION)
            (sampleSecret cp dgg tug)).format := by
      unfold DCRTPolyB.scale DCRTPolyB.binop0
      simp only
      rw [he.1, ha.1]
    have hl : (DCRTPolyB.scale cp.noiseScale
        (dgg cp.paramsPK Format.EVALUATION)).towers.length
        = (DCRTPolyB.binop0 (· * ·) (dug cp.paramsPK Format.EVALUATION)
            (sampleSecret cp dgg tug)).towers.length := by
      unfold DCRTPolyB.scale DCRTPolyB.binop0
      simp only [List.length_map, List.length_zipWith]
      rw [length_of_atChain ha, length_of_atChain hs, length_of_atChain he]
      omega
    rw [if_pos hf, if_pos hl]
  unfold KeyGenInternal
  simp only [hmul, hsub]

/-- Claim C2: key generation computes the public key's first component as
`b = noiseScale·e - a·s` — elementwise per tower — with the uniformly
sampled `a`, the Gaussian `e` and the resulting `b` all in transform
(EVALUATION) domain over exactly the enlarged (public-key) modulus chain. -/
theorem keygen_public_b_formula (n : ℕ) (cp : CryptoParamsBFVRNS)
    (dgg dug : SamplerD n) (tug : SamplerT n)
    (hs : atChain (sampleSecret cp dgg tug) cp.paramsPK)
    (ha : atChain (dug cp.paramsPK Format.EVALUATION) cp.paramsPK)
    (he : atChain (dgg cp.paramsPK Format.EVALUATION) cp.paramsPK) :
    ∃ kp : KeyPairB n, KeyGenInternal cp dgg dug tug = Except.ok kp ∧
      kp.publicB = DCRTPolyB.binop0 (· - ·)
        (DCRTPolyB.scale cp.noiseScale (dgg cp.paramsPK Format.EVALUATION))
        (DCRTPolyB.binop0 (· * ·) (dug cp.paramsPK Format.EVALUATION)
          (sampleSecret cp dgg tug)) ∧
      kp.publicA = dug cp.paramsPK Format.EVALUATION ∧
      kp.publicB.format = Format.EVALUATION ∧
      kp.publicA.format = Format.EVALUATION ∧
      kp.publicB.towers.map Tower.modulus = cp.paramsPK.moduli ∧
      kp.publicA.towers.map Tower.modulus = cp.paramsPK.moduli := by
  refine ⟨_, keygen_ok_of_wf cp dgg dug tug hs ha he, rfl, rfl, ?_, ha.1, ?_, ha.2⟩
  · unfold DCRTPolyB.binop0 DCRTPolyB.scale
    simp only
    exact he.1
  · unfold DCRTPolyB.binop0
    simp only
    have hlen : (DCRTPolyB.scale cp.noiseScale
        (dgg cp.paramsPK Format.EVALUATION)).towers.length
        = (List.zipWith (Tower.binop (· * ·))
            (dug cp.paramsPK Format.EVALUATION).towers
            (sampleSecret cp dgg tug).towers).length := by
      unfold DCRTPolyB.scale
      simp only [List.length_map, List.length_zipWith]
      rw [length_of_atChain ha, length_of_atChain hs, length_of_atChain he]
      omega
    rw [map_modulus_zipWith _ _ _ hlen, map_modulus_scale]
    exact he.2

/-! ## Concrete sampler stand-ins and parameter sets for witnesses -/

/-- A deterministic stand-in for an external sampler: the zero polynomial
at the requested chain and domain. -/
def zeroSamplerD (n : ℕ) : SamplerD n :=
  fun ps f => ⟨f, ps.moduli.map fun q => ⟨q, 1, fun _ => 0⟩⟩

/-- A deterministic stand-in for the ternary sampler. -/
def zeroSamplerT (n : ℕ) : SamplerT n :=
  fun ps f _ => ⟨f, ps.moduli.map fun q => ⟨q, 1, fun _ => 0⟩⟩

/-- A small standard-technique parameter set. -/
def cpStd : CryptoParamsBFVRNS :=
  { elementParams := ⟨[17, 19]⟩
    paramsQr := ⟨[17, 19, 23]⟩
    paramsPK := ⟨[17, 19, 23, 29]⟩
    encryptionTechnique := EncryptionTechnique.STANDARD
    secretKeyDist := UNIFORM_TERNARY
    noiseScale := 1
    plaintextModulus := 4
    multTechnique := MultTechnique.HPS
    tInvModq := []
    tInvModqr := []
    negQModt := fun _ => 0
    negQModtPrecon := fun _ => 0
    negQrModt := 0
    negQrModtPrecon := 0
    rInvModq := [] }

/-- The same parameter set with the EXTENDED encryption technique and a
primary chain strictly shorter than the `Qr` chain. -/
def cpExt : CryptoParamsBFVRNS :=
  { cpStd with
    elementParams := ⟨[17]⟩
    encryptionTechnique := EncryptionTechnique.EXTENDED }

/-- The standard parameter set with an out-of-range secret-key
distribution selector. -/
def cpBad : CryptoParamsBFVRNS :=
  { cpStd with secretKeyDist := 7 }

/-- The standard parameter set with the sparse ternary selector. -/
def cpSparse : CryptoParamsBFVRNS :=
  { cpStd with secretKeyDist := SPARSE_TERNARY }

/-- Concrete witness for C2: the standard parameter set with the
deterministic sampler stand-ins. -/
theorem keygen_public_b_formula_witness :
    atChain (sampleSecret cpStd (zeroSamplerD 1) (zeroSamplerT 1)) cpStd.paramsPK ∧
    atChain (zeroSamplerD 1 cpStd.paramsPK Format.EVALUATION) cpStd.paramsPK ∧
    (∃ kp : KeyPairB 1,
      KeyGenInternal cpStd (zeroSamplerD 1) (zeroSamplerD 1) (zeroSamplerT 1)
        = Except.ok kp ∧
      kp.publicA = zeroSamplerD 1 cpStd.paramsPK Format.EVALUATION ∧
      kp.publicB.format = Format.EVALUATION) := by
  refine ⟨⟨rfl, by decide⟩, ⟨rfl, by decide⟩, ?_⟩
  obtain ⟨kp, hok, _, hA, hBf, _⟩ :=
    keygen_public_b_formula 1 cpStd (zeroSamplerD 1) (zeroSamplerD 1)
      (zeroSamplerT 1) ⟨rfl, by decide⟩ ⟨rfl, by decide⟩ ⟨rfl, by decide⟩
  exact ⟨kp, hok, hA, hBf⟩

/-- Claim C3: invoking key generation with a secret-key distribution
selector that is none of the supported ones fails fast with a
non-recoverable error (the `default: break` of the switch leaves the secret
default-constructed and towerless, and the subsequent product `a·s` trips
the fail-fast tower-count precondition check of the RNS arithmetic layer),
provided the public-key chain is non-empty. -/
theorem keygen_invalid_dist_fails (n : ℕ) (cp : CryptoParamsBFVRNS)
    (dgg dug : SamplerD n) (tug : SamplerT n)
    (hsel : cp.secretKeyDist ≠ GAUSSIAN ∧ cp.secretKeyDist ≠ UNIFORM_TERNARY ∧
      cp.secretKeyDist ≠ SPARSE_TERNARY)
    (ha : (dug cp.paramsPK Format.EVALUATION).towers.length ≠ 0) :
    ∃ msg, KeyGenInternal cp dgg dug tug = Except.error msg := by
  have hsec : sampleSecret cp dgg tug = ⟨Format.EVALUATION, []⟩ := by
    unfold sampleSecret
    rw [if_neg hsel.1, if_neg hsel.2.1, if_neg hsel.2.2]
  have hmul : ∃ msg, DCRTPolyB.mul (dug cp.paramsPK Format.EVALUATION)
      (sampleSecret cp dgg tug) = Except.error msg := by
    unfold DCRTPolyB.mul DCRTPolyB.binop
    rw [hsec]
    by_cases hf : (dug cp.paramsPK Format.EVALUATION).format = Format.EVALUATION
    · rw [if_pos hf, if_neg (by simpa using ha)]
      exact ⟨_, rfl⟩
    · rw [if_neg hf]
      exact ⟨_, rfl⟩
  obtain ⟨msg, hmsg⟩ := hmul
  unfold KeyGenInternal
  simp only [hmsg]
  exact ⟨msg, rfl⟩

/-- Concrete witness for C3: selector 7 with a four-tower public-key
chain. -/
theorem keygen_invalid_dist_fails_witness :
    (cpBad.secretKeyDist ≠ GAUSSIAN ∧ cpBad.secretKeyDist ≠ UNIFORM_TERNARY ∧
      cpBad.secretKeyDist ≠ SPARSE_TERNARY) ∧
    (zeroSamplerD 1 cpBad.paramsPK Format.EVALUATION).towers.length ≠ 0 ∧
    ∃ msg, KeyGenInternal cpBad (zeroSamplerD 1) (zeroSamplerD 1)
      (zeroSamplerT 1) = Except.error msg := by
  refine ⟨by decide, by decide, ?_⟩
  exact keygen_invalid_dist_fails 1 cpBad (zeroSamplerD 1) (zeroSamplerD 1)
    (zeroSamplerT 1) (by decide) (by decide)

/-- Claim C10: whenever the sparse ternary selector is configured, the
secret key is sampled from the ternary generator with the fixed target
Hamming weight 192, whatever the remaining parameters are. -/
theorem sparse_ternary_hamming_192 (n : ℕ) (cp : CryptoParamsBFVRNS)
    (dgg : SamplerD n) (tug : SamplerT n)
    (h : cp.secretKeyDist = SPARSE_TERNARY) :
    sampleSecret cp dgg tug = tug cp.paramsPK Format.EVALUATION 192 := by
  unfold sampleSecret
  rw [h]
  rw [if_neg (by decide), if_neg (by decide), if_pos rfl]

/-- Concrete witness for C10. -/
theorem sparse_ternary_hamming_192_witness :
    cpSparse.secretKeyDist = SPARSE_TERNARY ∧
    sampleSecret cpSparse (zeroSamplerD 1) (zeroSamplerT 1)
      = zeroSamplerT 1 cpSparse.paramsPK Format.EVALUATION 192 :=
  ⟨rfl, sparse_ternary_hamming_192 1 cpSparse (zeroSamplerD 1)
    (zeroSamplerT 1) rfl⟩

/-- Counterexample to C4 as stated: under the EXTENDED technique the
working chain is the `Qr` chain, so even though the public-key chain (4
towers) is longer than the primary chain (1 tower), the returned secret key
has 3 towers — the `Qr` count — and not the primary chain's count. -/
theorem keygen_truncation_cex :
    cpExt.elementParams.moduli.length < cpExt.paramsPK.moduli.length ∧
    (KeyGenInternal cpExt (zeroSamplerD 1) (zeroSamplerD 1)
        (zeroSamplerT 1)).toOption.map
      (fun kp => kp.secretKey.towers.length) = some 3 ∧
    (3 : ℕ) ≠ cpExt.elementParams.moduli.length := by
  refine ⟨by decide, ?_, by decide⟩
  decide

/-- Claim C4 as amended: the truncation target is the *working* chain — the
primary chain under the standard technique, the extended `Qr` chain under
the EXTENDED technique.  Whenever the public-key chain has more towers than
the working chain, the returned secret key is cut down (dropping the excess
last towers) to the working chain's tower count, while both public key
components stay at the enlarged public-key chain. -/
theorem keygen_truncation_working_chain (n : ℕ) (cp : CryptoParamsBFVRNS)
    (dgg dug : SamplerD n) (tug : SamplerT n)
    (hs : atChain (sampleSecret cp dgg tug) cp.paramsPK)
    (ha : atChain (dug cp.paramsPK Format.EVALUATION) cp.paramsPK)
    (he : atChain (dgg cp.paramsPK Format.EVALUATION) cp.paramsPK) :
    ∃ kp : KeyPairB n, KeyGenInternal cp dgg dug tug = Except.ok kp ∧
      kp.secretKey =
        (if (if cp.encryptionTechnique = EncryptionTechnique.EXTENDED then
            cp.paramsQr else cp.elementParams).moduli.length
            < cp.paramsPK.moduli.length then
          DCRTPolyB.dropLastElements
            (cp.paramsPK.moduli.length -
              (if cp.encryptionTechnique = EncryptionTechnique.EXTENDED then
                cp.paramsQr else cp.elementParams).moduli.length)
            (sampleSecret cp dgg tug)
        else sampleSecret cp dgg tug) ∧
      kp.secretKey.towers.length =
        min cp.paramsPK.moduli.length
          (if cp.encryptionTechnique = EncryptionTechnique.EXTENDED then
            cp.paramsQr else cp.elementParams).moduli.length ∧
      kp.publicB.towers.length = cp.paramsPK.moduli.length ∧
      kp.publicA.towers.length = cp.paramsPK.moduli.length := by
  have hslen : (sampleSecret cp dgg tug).towers.length
      = cp.paramsPK.moduli.length := length_of_atChain hs
  have halen : (dug cp.paramsPK Format.EVALUATION).towers.length
      = cp.paramsPK.moduli.length := length_of_atChain ha
  have helen : (dgg cp.paramsPK Format.EVALUATION).towers.length
      = cp.paramsPK.moduli.length := length_of_atChain he
  refine ⟨_, keygen_ok_of_wf cp dgg dug tug hs ha he, rfl, ?_, ?_, halen⟩
  · set wlen := (if cp.encryptionTechnique = EncryptionTechnique.EXTENDED then
        cp.paramsQr else cp.elementParams).moduli.length with hw
    by_cases hlt : wlen < cp.paramsPK.moduli.length
    · rw [if_pos hlt]
      unfold DCRTPolyB.dropLastElements
      simp only [List.length_take]
      rw [hslen]
      omega
    · rw [if_neg hlt]
      rw [hslen]
      omega
  · unfold DCRTPolyB.binop0 DCRTPolyB.scale
    simp only [List.length_zipWith, List.length_map]
    rw [hslen, halen, helen]
    omega

/-- Concrete witness for the amended C4, on the EXTENDED parameter set of
the counterexample. -/
theorem keygen_truncation_working_chain_witness :
    atChain (sampleSecret cpExt (zeroSamplerD 1) (zeroSamplerT 1)) cpExt.paramsPK ∧
    (∃ kp : KeyPairB 1,
      KeyGenInternal cpExt (zeroSamplerD 1) (zeroSamplerD 1) (zeroSamplerT 1)
        = Except.ok kp ∧
      kp.secretKey.towers.length = 3 ∧
      kp.publicB.towers.length = 4) := by
  refine ⟨⟨rfl, by decide⟩, ?_⟩
  obtain ⟨kp, hok, _, hlen, hblen, _⟩ :=
    keygen_truncation_working_chain 1 cpExt (zeroSamplerD 1) (zeroSamplerD 1)
      (zeroSamplerT 1) ⟨rfl, by decide⟩ ⟨rfl, by decide⟩ ⟨rfl, by decide⟩
  refine ⟨kp, hok, ?_, ?_⟩
  · rw [hlen]; decide
  · rw [hblen]; decide

/-! ## External collaborator bundle, encryption entry points, decryption
dispatch -/

/-- The external collaborators used by the encryption/decryption bodies of
`bfvrns-pke.cpp` (all outside the source slice; the spec treats them as
assumed-correct externals): the per-tower transform kernel, CRT
interpolation to an extended basis, `TimesQovert`, the `P/Q` scale-and-round,
the zero-encryption/decrypt cores, the per-tower rescale kernel of
`DropLastElementAndScale`, and the two full-level scale-and-round kernels. -/
structure PkeEnv (n : ℕ) where
  ntt : Format → Format → ℕ → (Fin n → ℤ) → (Fin n → ℤ)
  crtInterpolate : ChainParams → DCRTPolyB n → DCRTPolyB n
  timesQovert : ChainParams → List ℤ → ℕ → ℤ → ℤ → DCRTPolyB n → DCRTPolyB n
  scaleAndRoundPOverQ : ChainParams → List ℤ → DCRTPolyB n → DCRTPolyB n
  decryptCore : List (DCRTPolyB n) → DCRTPolyB n → DCRTPolyB n
  rescale : ℕ → ℕ → (Fin n → ℤ) → (Fin n → ℤ)
  scaleAndRoundHPS : DCRTPolyB n → Tower n
  scaleAndRoundBEHZ : DCRTPolyB n → Tower n

/-- Transcribes `SetFormat`: domain conversion, performed per residue by the external
transform kernel; per the spec it is lossless and touches neither the tower
count nor the tower moduli. A no-op when the polynomial is already in the
requested domain. -/
def setFormat (env : PkeEnv n) (f : Format) (p : DCRTPolyB n) : DCRTPolyB n :=
  if p.format = f then p
  else ⟨f, p.towers.map fun tw =>
    ⟨tw.modulus, tw.root, env.ntt p.format f tw.modulus tw.values⟩⟩

/-- Modelled from the spec: `DCRTPoly::DropLastElementAndScale` (external
to the source slice) — "remove the last tower and redistribute its
contribution into the remaining towers via precomputed rescale constants"
(the per-tower redistribution arithmetic is the external `rescale`
kernel, indexed by the precomputed-table index). -/
def dropLastElementAndScale (env : PkeEnv n) (tbl : ℕ) (p : DCRTPolyB n) :
    DCRTPolyB n :=
  ⟨p.format, p.towers.dropLast.map fun tw =>
    ⟨tw.modulus, tw.root, env.rescale tbl tw.modulus tw.values⟩⟩

/-- Modelled from the spec: `NativePoly::MultiplyAndRound(t, q)` —
"multiply the remaining residue polynomial by `t` and round-divide by the
remaining modulus". -/
def multiplyAndRound (t q : ℕ) (x : Fin n → ℤ) : Fin n → ℤ :=
  fun j => roundDiv ((t : ℤ) * x j) (q : ℤ)

/-- Modelled from the spec: `NativePoly::SwitchModulus(t, 1, 0, 0)` —
"reinterpret the result modulo `t`", with the root of unity reset (to 1),
after which no further transform-domain work is valid. -/
def switchModulus (t root : ℕ) (tw : Tower n) : Tower n :=
  ⟨t, root, fun j => tw.values j % (t : ℤ)⟩

/-- Ciphertext in the structural view: component list and noise-scale
degree. -/
structure CiphertextB (n : ℕ) where
  elements : List (DCRTPolyB n)
  noiseScaleDeg : ℕ

/-- The secret-key (symmetric) encryption entry point
`PKEBFVRNS::Encrypt(DCRTPoly, PrivateKey)`, with the output `ba` of the
external `EncryptZeroCore` collaborator passed in: compute the level from
the plaintext's tower count, run the EXTENDED-technique re-basing when
configured, scale the plaintext by `Q/t`, add it to the zero-encryption's
first component, optionally scale both components back from the extended
basis, and return the pair in transform domain with noise-scale degree 1. -/
def EncryptSecret (cp : CryptoParamsBFVRNS) (env : PkeEnv n)
    (ba : DCRTPolyB n × DCRTPolyB n) (ptxt : DCRTPolyB n) :
    Except String (CiphertextB n) :=
  let elementParams := cp.elementParams
  let sizeQ := elementParams.moduli.length
  let encParams0 : ChainParams := ⟨ptxt.towers.map Tower.modulus⟩
  let sizeP := encParams0.moduli.length
  let level := sizeQ - sizeP
  let extended := cp.encryptionTechnique = EncryptionTechnique.EXTENDED
  let encParams := if extended then cp.paramsQr else encParams0
  let ptxt1 :=
    if extended then
      env.crtInterpolate cp.paramsQr (setFormat env Format.COEFFICIENT ptxt)
    else ptxt
  let tInvModq := if extended then cp.tInvModqr else cp.tInvModq
  let ptxt2 := setFormat env Format.COEFFICIENT ptxt1
  let negQModt := if extended then cp.negQrModt else cp.negQModt level
  let negQModtPrecon :=
    if extended then cp.negQrModtPrecon else cp.negQModtPrecon level
  let t := cp.plaintextModulus
  let ptxt3 := env.timesQovert encParams tInvModq t negQModt negQModtPrecon ptxt2
  let ptxt4 := setFormat env Format.EVALUATION ptxt3
  match DCRTPolyB.add ba.1 ptxt4 with
  | Except.error msg => Except.error msg
  | Except.ok c0a =>
    let c0b := setFormat env Format.COEFFICIENT c0a
    let c1b := setFormat env Format.COEFFICIENT ba.2
    let c0c :=
      if extended then env.scaleAndRoundPOverQ elementParams cp.rInvModq c0b
      else c0b
    let c1c :=
      if extended then env.scaleAndRoundPOverQ elementParams cp.rInvModq c1b
      else c1b
    let c0d := setFormat env Format.EVALUATION c0c
    let c1d := setFormat env Format.EVALUATION c1c
    Except.ok ⟨[c0d, c1d], 1⟩

/-- The public-key (asymmetric) encryption entry point
`PKEBFVRNS::Encrypt(DCRTPoly, PublicKey)`, with the output `ba` of the
external `EncryptZeroCore` collaborator passed in; its body repeats the
symmetric entry point step for step. -/
def EncryptPublic (cp : CryptoParamsBFVRNS) (env : PkeEnv n)
    (ba : DCRTPolyB n × DCRTPolyB n) (ptxt : DCRTPolyB n) :
    Except String (CiphertextB n) :=
  let elementParams := cp.elementParams
  let sizeQ := elementParams.moduli.length
  let encParams0 : ChainParams := ⟨ptxt.towers.map Tower.modulus⟩
  let sizeP := encParams0.moduli.length
  let level := sizeQ - sizeP
  let extended := cp.encryptionTechnique = EncryptionTechnique.EXTENDED
  let encParams := if extended then cp.paramsQr else encParams0
  let ptxt1 :=
    if extended then
      env.crtInterpolate cp.paramsQr (setFormat env Format.COEFFICIENT ptxt)
    else ptxt
  let tInvModq := if extended then cp.tInvModqr else cp.tInvModq
  let ptxt2 := setFormat env Format.COEFFICIENT ptxt1
  let negQModt := if extended then cp.negQrModt else cp.negQModt level
  let negQModtPrecon :=
    if extended then cp.negQrModtPrecon else cp.negQModtPrecon level
  let t := cp.plaintextModulus
  let ptxt3 := env.timesQovert encParams tInvModq t negQModt negQModtPrecon ptxt2
  let ptxt4 := setFormat env Format.EVALUATION ptxt3
  match DCRTPolyB.add ba.1 ptxt4 with
  | Except.error msg => Except.error msg
  | Except.ok c0a =>
    let c0b := setFormat env Format.COEFFICIENT c0a
    let c1b := setFormat env Format.COEFFICIENT ba.2
    let c0c :=
      if extended then env.scaleAndRoundPOverQ elementParams cp.rInvModq c0b
      else c0b
    let c1c :=
      if extended then env.scaleAndRoundPOverQ elementParams cp.rInvModq c1b
      else c1b
    let c0d := setFormat env Format.EVALUATION c0c
    let c1d := setFormat env Format.EVALUATION c1c
    Except.ok ⟨[c0d, c1d], 1⟩

/-- Transcribes `PKEBFVRNS::Decrypt`: apply the external decrypt core, then either the
full-level scale-and-round (dispatching on the multiplication technique)
when the tower count matches a fresh ciphertext, or the reduced-precision
fallback: iterated drop-and-rescale down to one tower, coefficient domain,
multiply-and-round by `t` over the remaining modulus, and reinterpretation
modulo `t` with the root of unity reset. -/
def DecryptB (cp : CryptoParamsBFVRNS) (env : PkeEnv n)
    (cv : List (DCRTPolyB n)) (sk : DCRTPolyB n) : Tower n :=
  let b := env.decryptCore cv sk
  let sizeQl := b.towers.length
  let sizeQ := cp.elementParams.moduli.length
  if sizeQl = sizeQ then
    let b1 := setFormat env Format.COEFFICIENT b
    if cp.multTechnique = MultTechnique.HPS ∨
        cp.multTechnique = MultTechnique.HPSPOVERQ ∨
        cp.multTechnique = MultTechnique.HPSPOVERQLEVELED then
      env.scaleAndRoundHPS b1
    else
      env.scaleAndRoundBEHZ b1
  else
    let diffQl := sizeQ - sizeQl
    let levels := sizeQl - 1
    let b1 := (List.range levels).foldl
      (fun acc l => dropLastElementAndScale env (diffQl + l) acc) b
    let b2 := setFormat env Format.COEFFICIENT b1
    let t := cp.plaintextModulus
    let element := b2.towers.headD ⟨1, 1, fun _ => 0⟩
    let q := element.modulus
    switchModulus t 1 ⟨q, element.root, multiplyAndRound t q element.values⟩

/-- Claim C5: given the same parameters, the same output of the external
encryption-of-zero primitive and the same plaintext, the symmetric and
asymmetric encryption entry points produce identical ciphertexts, and hence
decrypt to the same plaintext under any secret key. -/
theorem encrypt_paths_agree (n : ℕ) (cp : CryptoParamsBFVRNS) (env : PkeEnv n)
    (ba : DCRTPolyB n × DCRTPolyB n) (ptxt : DCRTPolyB n) :
    EncryptSecret cp env ba ptxt = EncryptPublic cp env ba ptxt ∧
    ∀ sk : DCRTPolyB n,
      (EncryptSecret cp env ba ptxt).map
        (fun ct => DecryptB cp env ct.elements sk)
      = (EncryptPublic cp env ba ptxt).map
        (fun ct => DecryptB cp env ct.elements sk) :=
  ⟨rfl, fun _ => rfl⟩

/-- The iterated drop-and-rescale chain of the compressed decryption path. -/
def compressedTail (cp : CryptoParamsBFVRNS) (env : PkeEnv n)
    (cv : List (DCRTPolyB n)) (sk : DCRTPolyB n) : DCRTPolyB n :=
  (List.range ((env.decryptCore cv sk).towers.length - 1)).foldl
    (fun acc l => dropLastElementAndScale env
      ((cp.elementParams.moduli.length - (env.decryptCore cv sk).towers.length)
        + l) acc)
    (env.decryptCore cv sk)

theorem dropLastElementAndScale_length (env : PkeEnv n) (tbl : ℕ)
    (p : DCRTPolyB n) :
    (dropLastElementAndScale env tbl p).towers.length = p.towers.length - 1 := by
  unfold dropLastElementAndScale
  simp

theorem setFormat_towers_length (env : PkeEnv n) (f : Format) (p : DCRTPolyB n) :
    (setFormat env f p).towers.length = p.towers.length := by
  unfold setFormat
  by_cases h : p.format = f
  · rw [if_pos h]
  · rw [if_neg h]
    simp

theorem foldl_drop_length (env : PkeEnv n) (d : ℕ) :
    ∀ (k : ℕ) (p : DCRTPolyB n), k ≤ p.towers.length →
      ((List.range k).foldl
        (fun acc l => dropLastElementAndScale env (d + l) acc) p).towers.length
        = p.towers.length - k := by
  intro k
  induction k with
  | zero => intro p _; simp
  | succ k ih =>
    intro p hk
    rw [List.range_succ, List.foldl_append]
    simp only [List.foldl_cons, List.foldl_nil]
    rw [dropLastElementAndScale_length, ih p (by omega)]
    omega

/-- Claim C7: for a ciphertext whose decrypt-core output has fewer towers
than the full chain (and at least one), decryption takes the
reduced-precision fallback: the drop-and-rescale chain leaves exactly one
tower, and the result is that remaining residue (in coefficient domain)
multiplied by `t`, round-divided by its remaining modulus, reduced modulo
`t`, with the output modulus set to `t` and the root of unity reset to 1. -/
theorem decrypt_compressed_fallback (n : ℕ) (cp : CryptoParamsBFVRNS)
    (env : PkeEnv n) (cv : List (DCRTPolyB n)) (sk : DCRTPolyB n)
    (hlo : 0 < (env.decryptCore cv sk).towers.length)
    (hhi : (env.decryptCore cv sk).towers.length
      < cp.elementParams.moduli.length) :
    ∃ e : Tower n,
      (compressedTail cp env cv sk).towers.length = 1 ∧
      (setFormat env Format.COEFFICIENT (compressedTail cp env cv sk)).towers
        = [e] ∧
      DecryptB cp env cv sk = ⟨cp.plaintextModulus, 1,
        fun j => roundDiv ((cp.plaintextModulus : ℤ) * e.values j)
          (e.modulus : ℤ) % (cp.plaintextModulus : ℤ)⟩ := by
  have hlen1 : (compressedTail cp env cv sk).towers.length = 1 := by
    unfold compressedTail
    rw [foldl_drop_length env _ _ _ (by omega)]
    omega
  have hlen2 : (setFormat env Format.COEFFICIENT
      (compressedTail cp env cv sk)).towers.length = 1 := by
    rw [setFormat_towers_length, hlen1]
  obtain ⟨e, he⟩ := List.length_eq_one.mp hlen2
  refine ⟨e, hlen1, he, ?_⟩
  unfold DecryptB
  rw [if_neg (by omega)]
  have hct : (List.range ((env.decryptCore cv sk).towers.length - 1)).foldl
      (fun acc l => dropLastElementAndScale env
        ((cp.elementParams.moduli.length
          - (env.decryptCore cv sk).towers.length) + l) acc)
      (env.decryptCore cv sk) = compressedTail cp env cv sk := rfl
  simp only [hct, he, List.headD_cons]
  unfold switchModulus multiplyAndRound
  rfl

/-- A deterministic stand-in for the external collaborator bundle, used by
witnesses: identity kernels, and a decrypt core returning the first
ciphertext component. -/
def idEnv (n : ℕ) : PkeEnv n :=
  { ntt := fun _ _ _ v => v
    crtInterpolate := fun _ p => p
    timesQovert := fun _ _ _ _ _ p => p
    scaleAndRoundPOverQ := fun _ _ p => p
    decryptCore := fun cv _ => cv.headD ⟨Format.EVALUATION, []⟩
    rescale := fun _ _ v => v
    scaleAndRoundHPS := fun _ => ⟨1, 1, fun _ => 0⟩
    scaleAndRoundBEHZ := fun _ => ⟨1, 1, fun _ => 0⟩ }

/-- A one-tower ciphertext against the two-tower chain of `cpStd`. -/
def cvW : List (DCRTPolyB 1) :=
  [⟨Format.EVALUATION, [⟨17, 1, fun _ => 3⟩]⟩]

/-- A one-tower secret key for the C7 witness. -/
def skW : DCRTPolyB 1 :=
  ⟨Format.EVALUATION, [⟨17, 1, fun _ => 1⟩]⟩

/-- Concrete witness for C7: a one-tower ciphertext under the two-tower
chain of `cpStd` takes the fallback path. -/
theorem decrypt_compressed_fallback_witness :
    0 < ((idEnv 1).decryptCore cvW skW).towers.length ∧
    ((idEnv 1).decryptCore cvW skW).towers.length
      < cpStd.elementParams.moduli.length ∧
    ∃ e : Tower 1,
      (compressedTail cpStd (idEnv 1) cvW skW).towers.length = 1 ∧
      (setFormat (idEnv 1) Format.COEFFICIENT
        (compressedTail cpStd (idEnv 1) cvW skW)).towers = [e] ∧
      DecryptB cpStd (idEnv 1) cvW skW = ⟨cpStd.plaintextModulus, 1,
        fun j => roundDiv ((cpStd.plaintextModulus : ℤ) * e.values j)
          (e.modulus : ℤ) % (cpStd.plaintextModulus : ℤ)⟩ := by
  refine ⟨by decide, by decide, ?_⟩
  exact decrypt_compressed_fallback 1 cpStd (idEnv 1) cvW skW
    (by decide) (by decide)

/-! ## Rerandomization (the Randomization block of
`hpdic_nemesis_ckks.cpp`) -/

/-- Ciphertext as manipulated by the rerandomization block: component list
plus the level and noise-scale-degree metadata. -/
structure CtxtR (n Q : ℕ) where
  elements : List (PolyA n Q)
  level : ℕ
  noiseScaleDeg : ℕ

/-- The Randomization block: read the component list, add the freshly
sampled (and transform-domain-converted) noise `r` to component 0, subtract
the same `r` from component 1, and store the updated component list back;
nothing else on the ciphertext is touched. -/
def rerandomize (n Q : ℕ) (ct : CtxtR n Q) (r : PolyA n Q) : CtxtR n Q :=
  let elements := ct.elements
  let c0 := elements.getD 0 0
  let c1 := elements.getD 1 0
  let newC0 := c0 + r
  let newC1 := c1 - r
  { ct with elements := (elements.set 0 newC0).set 1 newC1 }

/-- Claim C8: rerandomization replaces the two components with
`(c0 + r, c1 - r)` — one and the same noise polynomial `r` in both — and
leaves the remaining components and the level and noise-scale-degree
metadata unchanged. -/
theorem rerandomize_components_metadata (n Q : ℕ) (ct : CtxtR n Q)
    (r c0 c1 : PolyA n Q) (rest : List (PolyA n Q))
    (h : ct.elements = c0 :: c1 :: rest) :
    (rerandomize n Q ct r).elements = (c0 + r) :: (c1 - r) :: rest ∧
    (rerandomize n Q ct r).level = ct.level ∧
    (rerandomize n Q ct r).noiseScaleDeg = ct.noiseScaleDeg := by
  unfold rerandomize
  refine ⟨?_, rfl, rfl⟩
  simp only [h, List.getD_cons_zero, List.getD_cons_succ, List.set_cons_zero,
    List.set_cons_succ]

/-- Concrete witness for C8. -/
def ctW : CtxtR 1 5 :=
  ⟨[(fun _ => 1), (fun _ => 2)], 3, 4⟩

theorem rerandomize_components_metadata_witness :
    ctW.elements
      = (fun _ => (1 : ZMod 5)) :: (fun _ => (2 : ZMod 5))
        :: ([] : List (PolyA 1 5)) ∧
    (rerandomize 1 5 ctW (fun _ => 2)).elements
      = ((fun _ => (1 : ZMod 5)) + (fun _ => (2 : ZMod 5)))
        :: ((fun _ => (2 : ZMod 5)) - (fun _ => (2 : ZMod 5))) :: [] ∧
    (rerandomize 1 5 ctW (fun _ => 2)).level = ctW.level ∧
    (rerandomize 1 5 ctW (fun _ => 2)).noiseScaleDeg = ctW.noiseScaleDeg := by
  have h := rerandomize_components_metadata 1 5 ctW (fun _ => 2)
    (fun _ => (1 : ZMod 5)) (fun _ => (2 : ZMod 5)) [] rfl
  exact ⟨rfl, h.1, h.2.1, h.2.2⟩

/-- Counterexample to C9 as stated: the clause "does not cancel unless
`s = 1`" fails — at noise `r = 0` the added error term vanishes (the
rerandomized ciphertext decrypts to exactly the original decrypt-core
value) although the secret `s = 2` is not `1`. -/
theorem rerandomize_cancel_with_s_ne_one :
    decryptCore 1 5 ((fun _ => 3) + (fun _ => 0)) ((fun _ => 4) - (fun _ => 0))
        (fun _ => 2)
      = decryptCore 1 5 (fun _ => 3) (fun _ => 4) (fun _ => 2) ∧
    (fun _ : Fin 1 => (2 : ZMod 5)) ≠ (fun _ : Fin 1 => (1 : ZMod 5)) := by
  constructor
  · unfold decryptCore
    funext j
    simp
  · decide

/-- Claim C9 as amended: rerandomization perturbs the decrypt-core value by
exactly the error term `r·(1 - s)` — `(c0 + r) + (c1 - r)·s =
(c0 + c1·s) + r·(1 - s)` — a term that vanishes when `s = 1` but is not in
general zero (nor in general nonzero when `s ≠ 1`, e.g. at `r = 0`). -/
theorem rerandomize_error_term (n Q : ℕ) (c0 c1 s r : PolyA n Q) :
    decryptCore n Q (c0 + r) (c1 - r) s
      = decryptCore n Q c0 c1 s + r * (1 - s) := by
  unfold decryptCore
  ring

end BFV
